import Mathlib

/-!
Verification of the markdown-pii-scanner engine (src/bin/markdown-pii-scanner.js).

The JavaScript source is shallowly embedded: file contents are lists of
characters, the regex engine is abstracted as a `Matcher` (a function giving,
for each position of a string, the length of the match the engine would return
anchored at that position, if any), and every scanning / aggregation /
reporting routine of the source is translated into an executable Lean
definition that mirrors the source's control flow.
-/

namespace PiiScanner

/-- Matcher abstracts a compiled JavaScript regular expression: `matchAt s i`
is `some len` when the regex engine, anchored at position `i` of `s`, yields a
match of length `len`, and `none` when no match starts at `i`. -/
structure Matcher where
  matchAt : List Char → Nat → Option Nat

/-- Literal-string matcher: the regex obtained from a string with no
metacharacters, matching exactly that string. -/
def litM (pat : List Char) : Matcher :=
  ⟨fun s i => if pat.isPrefixOf (s.drop i) then some pat.length else none⟩

/-- Scan positions `i, i+1, ...` up to `s.length` looking for the first
position where the matcher matches; `fuel` bounds the recursion. -/
def firstMatchAux (m : Matcher) (s : List Char) : Nat → Nat → Option (Nat × Nat)
  | _, 0 => none
  | i, fuel + 1 =>
    if i > s.length then none
    else
      match m.matchAt s i with
      | some len => some (i, len)
      | none => firstMatchAux m s (i + 1) fuel

/-- Leftmost match at position at least `start` (JavaScript `regex.exec` /
non-global `String.match` search semantics): returns (position, length). -/
def firstMatchFrom (m : Matcher) (s : List Char) (start : Nat) : Option (Nat × Nat) :=
  firstMatchAux m s start (s.length + 1 - start)

/-- Substring of `s` starting at `i` of length `len`. -/
def sliceCs (s : List Char) (i len : Nat) : List Char :=
  (s.drop i).take len

/-- Successive non-overlapping leftmost matches, as produced by a global-flag
JavaScript regex: after a match at `i` of length `len`, the search resumes at
`i + len`, or at `i + 1` if the match was empty. `fuel` bounds the loop. -/
def matchAllAux (m : Matcher) (s : List Char) : Nat → Nat → List (Nat × Nat)
  | _, 0 => []
  | start, fuel + 1 =>
    match firstMatchFrom m s start with
    | none => []
    | some (i, len) => (i, len) :: matchAllAux m s (i + max len 1) fuel

/-- Positions and lengths of all matches found by `content.match(re)` with the
global flag (src line 465-466). -/
def jsMatchAllPos (m : Matcher) (s : List Char) : List (Nat × Nat) :=
  matchAllAux m s 0 (s.length + 1)

/-- Matched substrings of all global matches, in order. -/
def jsMatchAll (m : Matcher) (s : List Char) : List (List Char) :=
  (jsMatchAllPos m s).map (fun p => sliceCs s p.1 p.2)

/-- JavaScript `regex.test(s)`: true when a match exists anywhere in `s`. -/
def rTest (m : Matcher) (s : List Char) : Bool :=
  (firstMatchFrom m s 0).isSome

/-- Allowlist suppression (src lines 469-474, 548-553, 622-626): a matched
text fragment is suppressed when some allowlist regex matches anywhere in it. -/
def suppressed (al : List Matcher) (t : List Char) : Bool :=
  al.any (fun r => rTest r t)

/-! ### Glob engine (src `globToRegExp`, lines 373-405, and `isIgnored`, 414-426)

`globToRegExp` translates a glob to an anchored regex: `**` becomes `.*`, a
lone `*` becomes `[^/]*`, `?` becomes `[^/]`, and every other character is
emitted as a literal (the characters in `\.[]\x7b\x7d()+-^$|` are escaped, the
rest are regex-literal as emitted). The regex is built without the `s` flag,
so its dot — and hence the compiled `**` — matches any character except the
JavaScript line terminators, while the negated classes `[^/]` from `*` and
`?` match every non-`/` character, line terminators included. We embed the
composite glob-to-regex-to-test function as a token compiler plus an anchored
matcher with exactly those token semantics. -/

/-- Characters a JavaScript regex dot (without the `s` flag) matches: all but
the four ECMAScript line terminators LF, CR, U+2028 and U+2029. -/
def jsDotChar (c : Char) : Bool :=
  c != '\n' && c != '\r' && c != '\u2028' && c != '\u2029'

/-- One compiled glob token. -/
inductive GlobTok where
  | deep : GlobTok
  | star : GlobTok
  | qmark : GlobTok
  | lit : Char → GlobTok
deriving DecidableEq, Repr

/-- Character-by-character glob translation loop (src lines 377-402). -/
def globTokens : List Char → List GlobTok
  | [] => []
  | '*' :: '*' :: rest => .deep :: globTokens rest
  | '*' :: rest => .star :: globTokens rest
  | '?' :: rest => .qmark :: globTokens rest
  | c :: rest => .lit c :: globTokens rest

/-- Full compilation: one leading `/` is stripped (src line 375), then the
translation loop runs. -/
def globCompile (g : List Char) : List GlobTok :=
  match g with
  | '/' :: rest => globTokens rest
  | g => globTokens g

/-- Anchored matching of a compiled glob against a whole string: `deep`
(compiled to `.*`) consumes any characters including `/` except the line
terminators the JavaScript dot never matches, `star` (`[^/]*`) any non-`/`
characters, `qmark` (`[^/]`) exactly one non-`/` character, `lit c` exactly
`c`. This is the test semantics of the anchored regex `globToRegExp` builds. -/
def globMatch : List GlobTok → List Char → Bool
  | [], [] => true
  | [], _ :: _ => false
  | .deep :: ts, [] => globMatch ts []
  | .deep :: ts, c :: s => globMatch ts (c :: s) || (jsDotChar c && globMatch (.deep :: ts) s)
  | .star :: ts, [] => globMatch ts []
  | .star :: ts, c :: s => globMatch ts (c :: s) || (c != '/' && globMatch (.star :: ts) s)
  | .qmark :: _, [] => false
  | .qmark :: ts, c :: s => c != '/' && globMatch ts s
  | .lit _ :: _, [] => false
  | .lit c :: ts, d :: s => c == d && globMatch ts s
termination_by ts s => ts.length + s.length

/-- Glob test on a string. -/
def globTest (glob s : String) : Bool :=
  globMatch (globCompile glob.data) s.data

/-- Whether a raw glob contains a path separator (src `p.includes('/')`). -/
def hasSlash (s : String) : Bool :=
  s.data.any (fun c => c == '/')

/-- Accumulate the current path segment, restarting at each `/`; returns the
final segment. -/
def basenameAux : List Char → List Char → List Char
  | cur, [] => cur.reverse
  | _, '/' :: rest => basenameAux [] rest
  | cur, c :: rest => basenameAux (c :: cur) rest

/-- Final path segment of a `/`-separated path (`path.posix.basename`). -/
def basenameOf (s : String) : String :=
  String.mk (basenameAux [] s.data)

/-- One ignore rule applied to a normalized relative path (src `isIgnored`):
a rule whose raw glob contains `/` is tested against the full relative path,
otherwise against the base name. -/
def ruleMatches (glob : String) (relPath : String) : Bool :=
  if hasSlash glob then globTest glob relPath
  else globTest glob (basenameOf relPath)

/-- A file is ignored when any rule matches (src lines 414-426). -/
def isIgnoredModel (globs : List String) (relPath : String) : Bool :=
  globs.any (fun g => ruleMatches g relPath)

/-! ### Count-mode aggregation (src lines 454-492) -/

/-- Contribution of one file's content to one pattern's count, mirroring the
source branch structure: all global matches are collected; when an allowlist
is present each match is individually tested and only unsuppressed matches
count, otherwise the raw match count is added (src lines 464-479). -/
def fileAdd (al : List Matcher) (content : List Char) (m : Matcher) : Nat :=
  let raw := jsMatchAll m content
  if raw.length > 0 then
    if al.length > 0 then (raw.filter (fun t => !suppressed al t)).length
    else raw.length
  else 0

/-- One file's pass over the mutable `counts` array: each pattern's slot is
incremented by that file's contribution. -/
def countStep (al : List Matcher) (pats : List Matcher) (counts : List Nat)
    (content : List Char) : List Nat :=
  List.zipWith (fun c m => c + fileAdd al content m) counts pats

/-- Whole count-mode scan: fold the per-file pass over all file contents,
starting from an all-zero counts array (src lines 455-481). -/
def countScan (pats : List Matcher) (al : List Matcher)
    (contents : List (List Char)) : List Nat :=
  contents.foldl (fun counts c => countStep al pats counts c) (List.replicate pats.length 0)

/-- Count-mode stdout lines, `name:count` in definition order (src line 486). -/
def countOutput (names : List String) (counts : List Nat) : List String :=
  List.zipWith (fun n c => n ++ ":" ++ toString c) names counts

/-- Reference counter for one pattern and one file: the number of the
pattern's non-overlapping occurrences in the whole content that the allowlist
does not suppress. -/
def unsuppCount (al : List Matcher) (m : Matcher) (content : List Char) : Nat :=
  ((jsMatchAll m content).filter (fun t => !suppressed al t)).length

/-- Reference total for one pattern: unsuppressed occurrences summed over all
files. -/
def refTotal (al : List Matcher) (contents : List (List Char)) (m : Matcher) : Nat :=
  (contents.map (unsuppCount al m)).sum

/-! ### Baseline store (src lines 495-527) -/

/-- The parsed baseline JSON values the engine distinguishes: the JSON value
null (falsy, treated like an absent baseline) or an object mapping pattern
names to numbers. -/
inductive Jv where
  | jnull : Jv
  | jobj : List (String × Int) → Jv
deriving DecidableEq, Repr

/-- JavaScript object property assignment on an association list: overwrite
the first binding of the key in place, else append. -/
def objSet (l : List (String × Int)) (k : String) (v : Int) : List (String × Int) :=
  match l with
  | [] => [(k, v)]
  | (k', v') :: rest => if k' == k then (k, v) :: rest else (k', v') :: objSet rest k v

/-- Property read with default 0, modelling `Number(baselineData[name] || 0)`
(src line 515). -/
def objGetD (l : List (String × Int)) (k : String) : Int :=
  match l with
  | [] => 0
  | (k', v) :: rest => if k' == k then v else objGetD rest k

/-- Seeding write: `out[patNames[p]] = counts[p]` over all patterns in order
(src lines 505-507). -/
def seedBaseline (names : List String) (counts : List Nat) : List (String × Int) :=
  (List.zip names counts).foldl (fun acc nc => objSet acc nc.1 (Int.ofNat nc.2)) []

/-- The `hasNew` flag computed by the delta loop (src lines 511-525). -/
def hasNewFold (names : List String) (counts : List Nat) (b : List (String × Int)) : Bool :=
  (List.zip names counts).foldl
    (fun h nc => if (Int.ofNat nc.2) - objGetD b nc.1 > 0 then true else h) false

/-- Delta classification text (src lines 517-523). -/
def deltaText (d : Int) : String :=
  if d > 0 then "+" ++ toString d ++ " new"
  else if d < 0 then "-" ++ toString (-d) ++ " fewer"
  else "no change"

/-- Baseline-delta stdout lines (src line 524). -/
def deltaLines (names : List String) (counts : List Nat) (b : List (String × Int)) : List String :=
  (List.zip names counts).map (fun nc =>
    nc.1 ++ ": " ++ toString nc.2 ++ " (baseline: " ++ toString (objGetD b nc.1) ++ ", "
      ++ deltaText ((Int.ofNat nc.2) - objGetD b nc.1) ++ ")")

/-! ### Run outcomes -/

/-- How the process ends: a call to `process.exit(code)`, or a crash through
an uncaught exception (whose status is set by the runtime, not the program). -/
inductive ExitStatus where
  | exit : Nat → ExitStatus
  | crashed : ExitStatus
deriving DecidableEq, Repr

/-- Externally visible outcome of a run: scan-output lines on stdout, whether
a descriptive error message was printed, what (if anything) was written to the
baseline file, and how the process ended. -/
structure RunOutcome where
  stdout : List String
  errMsg : Bool
  written : Option (List (String × Int))
  status : ExitStatus
deriving DecidableEq, Repr

/-- The whole `countOnly` block (src lines 454-528): scan, then either plain
count output with exit 1 on any match, or the baseline branch — exit 2 on a
malformed stored baseline, seeding on an absent or null baseline, otherwise
per-pattern delta report with exit 1 iff some pattern gained matches.
`stored` is `none` when no file exists at the baseline path, `some none` when
the file exists but is not valid JSON, and `some (some v)` when it parses. -/
def countMode (pats : List (String × Matcher)) (al : List Matcher)
    (files : List (String × List Char)) (hasBaseline : Bool)
    (stored : Option (Option Jv)) : RunOutcome :=
  let names := pats.map (fun p => p.1)
  let counts := countScan (pats.map (fun p => p.2)) al (files.map (fun f => f.2))
  if !hasBaseline then
    ⟨countOutput names counts, false, none, .exit (if counts.sum > 0 then 1 else 0)⟩
  else
    match stored with
    | some none => ⟨[], true, none, .exit 2⟩
    | none => ⟨[], false, some (seedBaseline names counts), .exit 0⟩
    | some (some .jnull) => ⟨[], false, some (seedBaseline names counts), .exit 0⟩
    | some (some (.jobj b)) =>
        ⟨deltaLines names counts b, false, none,
         .exit (if hasNewFold names counts b then 1 else 0)⟩

/-! ### Summary mode (src lines 531-601) -/

/-- Per-file total across all patterns, with the same per-occurrence allowlist
branch as count mode (src lines 542-559). -/
def summaryFileCount (pats : List Matcher) (al : List Matcher) (content : List Char) : Nat :=
  pats.foldl (fun acc m => acc + fileAdd al content m) 0

/-- JavaScript `Map.set` on an association list: update the first binding in
place, else append (insertion order preserved). -/
def mapSet (l : List (String × Nat)) (k : String) (v : Nat) : List (String × Nat) :=
  match l with
  | [] => [(k, v)]
  | (k', v') :: rest => if k' == k then (k, v) :: rest else (k', v') :: mapSet rest k v

/-- JavaScript `Map.get` with a default. -/
def mapGetD (l : List (String × Nat)) (k : String) (d : Nat) : Nat :=
  match l with
  | [] => d
  | (k', v) :: rest => if k' == k then v else mapGetD rest k d

/-- The `fileCounts` map: files with a nonzero per-file total, keyed by
relative path, in traversal order (src lines 532-564). -/
def fileCountsList (pats : List Matcher) (al : List Matcher)
    (files : List (String × List Char)) : List (String × Nat) :=
  files.foldl
    (fun acc fc =>
      let n := summaryFileCount pats al fc.2
      if n > 0 then mapSet acc fc.1 n else acc) []

/-- Split a string at every `/`, like JavaScript `s.split('/')`. -/
def splitSlashAux : List Char → List Char → List String
  | cur, [] => [String.mk cur.reverse]
  | cur, '/' :: rest => String.mk cur.reverse :: splitSlashAux [] rest
  | cur, c :: rest => splitSlashAux (c :: cur) rest

/-- Split a string at every `/`. -/
def splitSlash (s : String) : List String :=
  splitSlashAux [] s.data

/-- Directory part of a `/`-separated relative path (`path.posix.dirname`):
everything before the final segment, or `.` when there is none. -/
def jsDirname (s : String) : String :=
  match (splitSlash s).dropLast with
  | [] => "."
  | ds => String.intercalate "/" ds

/-- Grouping key from the first two directory segments of the relative path
(src lines 570-576): no directory part gives the root marker `.`, one segment
gives that segment, two or more give `first/second`. -/
def groupOf (rel : String) : String :=
  let d := jsDirname rel
  let parts := if d == "." then [] else splitSlash d
  match parts with
  | [] => "."
  | [a] => a
  | a :: b :: _ => a ++ "/" ++ b

/-- The `dirCounts` rollup: fold the file counts into groups (src lines
568-577). -/
def dirCountsList (fcs : List (String × Nat)) : List (String × Nat) :=
  fcs.foldl (fun acc fc =>
    let g := groupOf fc.1
    mapSet acc g (mapGetD acc g 0 + fc.2)) []

/-- Code-point comparison on character lists, the total order standing in for
`String.localeCompare` in the sort comparators. -/
def csLe : List Char → List Char → Bool
  | [], _ => true
  | _ :: _, [] => false
  | a :: as, b :: bs =>
      a.toNat < b.toNat || (a.toNat == b.toNat && csLe as bs)

/-- Row comparator of both summary sections (src lines 579-583): descending
count, ties broken by ascending name. -/
def rowLe (a b : String × Nat) : Bool :=
  b.2 < a.2 || (a.2 == b.2 && csLe a.1.data b.1.data)

/-- The comparator as a decidable relation, for the sort. -/
def rowLeP (a b : String × Nat) : Prop :=
  rowLe a b = true

instance : DecidableRel rowLeP := fun a b => instDecidableEqBool (rowLe a b) true

/-- Stable sort by the row comparator, modelling `Array.prototype.sort`
(stable per the language specification, so any stable sort by the same total
preorder produces the same row order). -/
def sortRows (rows : List (String × Nat)) : List (String × Nat) :=
  rows.insertionSort rowLeP

/-- Sorted directory rows (src lines 579-580). -/
def dirRowsOf (fcs : List (String × Nat)) : List (String × Nat) :=
  sortRows (dirCountsList fcs)

/-- Sorted file rows truncated to the top 10 (src lines 581-583). -/
def fileRowsOf (fcs : List (String × Nat)) : List (String × Nat) :=
  (sortRows fcs).take 10

/-- `String.padStart`-style left padding with spaces to the given width. -/
def padLeft (s : String) (w : Nat) : String :=
  String.mk (List.replicate (w - s.length) ' ') ++ s

/-- Width of the largest count in a row list (src lines 585-588). -/
def rowWidth (rows : List (String × Nat)) : Nat :=
  (toString (rows.foldl (fun acc r => max acc r.2) 0)).length

/-- Full summary-mode outcome (src lines 531-601). -/
def summaryMode (pats : List Matcher) (al : List Matcher)
    (files : List (String × List Char)) : RunOutcome :=
  let fcs := fileCountsList pats al files
  let total := (files.map (fun fc => summaryFileCount pats al fc.2)).sum
  if fcs.isEmpty then ⟨[], false, none, .exit 0⟩
  else
    let dirRows := dirRowsOf fcs
    let fileRows := fileRowsOf fcs
    let dw := rowWidth dirRows
    let fw := rowWidth fileRows
    ⟨["=== By Directory ==="]
       ++ dirRows.map (fun r => padLeft (toString r.2) dw ++ "  " ++ r.1)
       ++ ["=== Top Files ==="]
       ++ fileRows.map (fun r => padLeft (toString r.2) fw ++ "  " ++ r.1),
     false, none, .exit (if total > 0 then 1 else 0)⟩

/-! ### Listing mode (src lines 604-642)

Each file is read through `readline`, which splits the content at `\n`, `\r`
or `\r\n` and emits a trailing chunk without a terminator but no empty line
for a terminating newline. -/

/-- Line splitter matching `readline` with `crlfDelay: Infinity`. -/
def splitLinesAux : List Char → List Char → List (List Char)
  | acc, [] => [acc.reverse]
  | acc, '\r' :: '\n' :: rest => acc.reverse :: splitLinesAux [] rest
  | acc, '\r' :: rest => acc.reverse :: splitLinesAux [] rest
  | acc, '\n' :: rest => acc.reverse :: splitLinesAux [] rest
  | acc, c :: rest => splitLinesAux (c :: acc) rest

/-- The sequence of lines `readline` emits for a file content. -/
def jsSplitLines (content : List Char) : List (List Char) :=
  match (splitLinesAux [] content).reverse with
  | [] :: rest => rest.reverse
  | ls => ls.reverse

/-- The per-line pattern loop (src lines 616-630): for every pattern in
definition order, the first occurrence on the line is taken; if its text is
not allowlisted, one formatted output line is produced. -/
def lineEntries (pats : List (String × Matcher)) (al : List Matcher)
    (file : String) (lineNo : Nat) (line : List Char) : List String :=
  pats.filterMap (fun nm =>
    match firstMatchFrom nm.2 line 0 with
    | none => none
    | some (i, len) =>
      let t := sliceCs line i len
      if suppressed al t then none
      else some (file ++ ":" ++ toString lineNo ++ ":" ++ nm.1 ++ ":" ++ String.mk t))

/-- One file's listing pass, with the mutable 1-based line counter of
`scanFile` modelled by the fold state (src lines 612-631). -/
def listingFile (pats : List (String × Matcher)) (al : List Matcher)
    (file : String) (content : List Char) : List String :=
  ((jsSplitLines content).foldl
    (fun (st : List String × Nat) line =>
      (st.1 ++ lineEntries pats al file (st.2 + 1) line, st.2 + 1))
    ([], 0)).1

/-- Whole listing scan over the filtered file list in traversal order
(src lines 637-641). -/
def listingRun (pats : List (String × Matcher)) (al : List Matcher)
    (files : List (String × List Char)) : List String :=
  files.foldl (fun out fc => out ++ listingFile pats al fc.1 fc.2) []

/-- Listing-mode outcome: the `matches` counter equals the number of emitted
lines, and the process exits 1 exactly when it is positive (src line 641). -/
def listingMode (pats : List (String × Matcher)) (al : List Matcher)
    (files : List (String × List Char)) : RunOutcome :=
  let out := listingRun pats al files
  ⟨out, false, none, .exit (if out.length > 0 then 1 else 0)⟩

/-! ### Listing mode with fallible pattern compilation (src lines 616-618)

The source never compiles pattern strings at construction: `new RegExp` runs
inside the per-line pattern loop, so a pattern string that fails to compile
throws there. A pattern source is modelled as `Option Matcher`, `none`
standing for a string `new RegExp` rejects. -/

/-- Per-line loop with compilation: output lines produced before the loop
reaches an invalid pattern, and whether it crashed there. -/
def lineEntriesE (pats : List (String × Option Matcher)) (al : List Matcher)
    (file : String) (lineNo : Nat) (line : List Char) : List String × Bool :=
  match pats with
  | [] => ([], false)
  | (_, none) :: _ => ([], true)
  | (n, some m) :: rest =>
    let next := lineEntriesE rest al file lineNo line
    (lineEntries [(n, m)] al file lineNo line ++ next.1, next.2)

/-- One file's listing pass with fallible compilation: stops at the line
where the loop first throws. -/
def listingFileE (pats : List (String × Option Matcher)) (al : List Matcher)
    (file : String) (content : List Char) : List String × Bool :=
  ((jsSplitLines content).foldl
    (fun (st : (List String × Bool) × Nat) line =>
      if st.1.2 then st
      else
        let r := lineEntriesE pats al file (st.2 + 1) line
        ((st.1.1 ++ r.1, r.2), st.2 + 1))
    (([], false), 0)).1

/-- Whole listing scan with fallible compilation: an exception thrown in a
line handler is uncaught, so the process dies there; output already written
stays visible. -/
def listingRunE (pats : List (String × Option Matcher)) (al : List Matcher)
    (files : List (String × List Char)) : List String × Bool :=
  files.foldl
    (fun st fc =>
      if st.2 then st
      else
        let r := listingFileE pats al fc.1 fc.2
        (st.1 ++ r.1, r.2))
    ([], false)

/-- Listing-mode outcome under fallible compilation: a crash ends the process
with the runtime's uncaught-exception status, not a `process.exit` call. -/
def listingModeE (pats : List (String × Option Matcher)) (al : List Matcher)
    (files : List (String × List Char)) : RunOutcome :=
  let r := listingRunE pats al files
  if r.2 then ⟨r.1, false, none, .crashed⟩
  else ⟨r.1, false, none, .exit (if r.1.length > 0 then 1 else 0)⟩

/-! ### Traversal and the top-level driver (src lines 300-642) -/

/-- A directory listing, encoded first-order: a sequence of entries where a
regular file carries its content and a directory carries its own listing. -/
inductive FSF where
  | nil : FSF
  | file : String → String → FSF → FSF
  | dir : String → FSF → FSF → FSF

/-- Extension of an entry name as the scanner computes it (src line 438):
`path.extname` takes everything after the last dot when that dot is not the
first character, then the leading dot is dropped and the rest lower-cased. -/
def extOf (name : String) : String :=
  let rec lastDot : List Char → Nat → Option Nat → Option Nat
    | [], _, best => best
    | c :: rest, i, best => lastDot rest (i + 1) (if c == '.' then some i else best)
  match lastDot name.data 0 none with
  | none => ""
  | some 0 => ""
  | some i => String.mk ((name.data.drop (i + 1)).map Char.toLower)

/-- Join a relative prefix and an entry name with `/`. -/
def joinRel (pre name : String) : String :=
  if pre == "" then name else pre ++ "/" ++ name

/-- Recursive traversal (src `collectFiles`, lines 429-442): `.git` entries
are skipped, directories in the exclusion set are pruned, and files whose
extension is in the extension set are collected with their `/`-separated
relative path, in directory-listing order. -/
def collectEntries (excl : List String) (exts : List String) :
    String → FSF → List (String × List Char)
  | _, .nil => []
  | pre, .file n c rest =>
      (if n == ".git" then []
       else if exts.contains (extOf n) then [(joinRel pre n, c.data)] else [])
        ++ collectEntries excl exts pre rest
  | pre, .dir n es rest =>
      (if n == ".git" then []
       else if excl.contains n then []
       else collectEntries excl exts (joinRel pre n) es)
        ++ collectEntries excl exts pre rest

/-- Everything the core consumes, after the CLI layer has parsed it. -/
structure ScanConfig where
  countOnly : Bool
  summaryOnly : Bool
  hasBaseline : Bool
  storedBaseline : Option (Option Jv)
  pats : List (String × Matcher)
  al : List Matcher
  exts : List String
  excl : List String
  ignores : List String

/-- Whole engine run (src lines 316, 444-642): traverse, apply the ignore
filter, exit 0 at once when no files survive, otherwise normalize
`--baseline` into count mode and dispatch to the selected mode. -/
def runScanner (cfg : ScanConfig) (root : FSF) : RunOutcome :=
  let files := collectEntries cfg.excl cfg.exts "" root
  let filtered := files.filter (fun fc => !isIgnoredModel cfg.ignores fc.1)
  if filtered.isEmpty then ⟨[], false, none, .exit 0⟩
  else
    let countOnly := cfg.countOnly || cfg.hasBaseline
    if countOnly then countMode cfg.pats cfg.al filtered cfg.hasBaseline cfg.storedBaseline
    else if cfg.summaryOnly then summaryMode (cfg.pats.map (fun p => p.2)) cfg.al filtered
    else listingMode cfg.pats cfg.al filtered

/-! ### Lemmas about count-mode aggregation -/

/-- The branch structure of the per-file counting loop adds exactly the
number of unsuppressed occurrences, also when the allowlist is empty. -/
theorem fileAdd_eq (al : List Matcher) (content : List Char) (m : Matcher) :
    fileAdd al content m = unsuppCount al m content := by
  unfold fileAdd unsuppCount
  cases hal : al with
  | nil =>
      simp only [suppressed, List.any_nil, Bool.not_false, List.filter_true, List.length_nil]
      split <;> simp_all
  | cons a as =>
      simp only [List.length_cons]
      split
      · simp
      · next h =>
          have : jsMatchAll m content = [] := by
            cases hjs : jsMatchAll m content with
            | nil => rfl
            | cons x xs => rw [hjs] at h; simp at h
          simp [this]

theorem zipWith_add_map_zero (counts : List Nat) (pats : List Matcher)
    (h : counts.length = pats.length) :
    List.zipWith (fun c (_ : Matcher) => c + 0) counts pats = counts := by
  induction counts generalizing pats with
  | nil => simp
  | cons c cs ih =>
      cases pats with
      | nil => simp at h
      | cons p ps => simp_all

theorem zipWith_add_assoc (pats : List Matcher) (counts : List Nat)
    (f g : Matcher → Nat) :
    List.zipWith (fun c m => c + g m) (List.zipWith (fun c m => c + f m) counts pats) pats
      = List.zipWith (fun c m => c + (f m + g m)) counts pats := by
  induction pats generalizing counts with
  | nil => simp
  | cons p ps ih =>
      cases counts with
      | nil => simp
      | cons c cs => simp_all; omega

/-- The count-mode fold over files computes, for every pattern slot, the
reference total of unsuppressed occurrences over all files. -/
theorem countScan_foldl (al : List Matcher) (contents : List (List Char)) :
    ∀ (pats : List Matcher) (counts : List Nat), counts.length = pats.length →
    contents.foldl (fun cs c => countStep al pats cs c) counts
      = List.zipWith (fun c m => c + refTotal al contents m) counts pats := by
  induction contents with
  | nil =>
      intro pats counts h
      simp only [List.foldl_nil, refTotal, List.map_nil, List.sum_nil]
      exact (zipWith_add_map_zero counts pats h).symm
  | cons c0 cs ih =>
      intro pats counts h
      have hlen : (countStep al pats counts c0).length = pats.length := by
        simp [countStep, h]
      calc (c0 :: cs).foldl (fun cs₁ c => countStep al pats cs₁ c) counts
          = cs.foldl (fun cs₁ c => countStep al pats cs₁ c) (countStep al pats counts c0) := by
            simp
        _ = List.zipWith (fun c m => c + refTotal al cs m) (countStep al pats counts c0) pats :=
            ih pats _ hlen
        _ = List.zipWith (fun c m => c + (fileAdd al c0 m + refTotal al cs m)) counts pats := by
            unfold countStep
            exact zipWith_add_assoc pats counts _ _
        _ = List.zipWith (fun c m => c + refTotal al (c0 :: cs) m) counts pats := by
            congr 1
            funext c m
            simp [refTotal, fileAdd_eq, unsuppCount]

theorem zipWith_replicate_zero (pats : List Matcher) (f : Matcher → Nat) :
    List.zipWith (fun c m => c + f m) (List.replicate pats.length 0) pats = pats.map f := by
  induction pats with
  | nil => simp
  | cons p ps ih => simpa [List.replicate_succ] using ih

/-- Whole count-mode scan equals the per-pattern reference totals, in
definition order. -/
theorem countScan_eq (pats : List Matcher) (al : List Matcher)
    (contents : List (List Char)) :
    countScan pats al contents = pats.map (refTotal al contents) := by
  unfold countScan
  rw [countScan_foldl al contents pats _ (by simp)]
  exact zipWith_replicate_zero pats _

/-- Search positions only move forward. -/
theorem firstMatchAux_ge (m : Matcher) (s : List Char) :
    ∀ (fuel i : Nat) (r : Nat × Nat), firstMatchAux m s i fuel = some r → i ≤ r.1 := by
  intro fuel
  induction fuel with
  | zero => intro i r h; simp [firstMatchAux] at h
  | succ f ih =>
      intro i r h
      unfold firstMatchAux at h
      split at h
      · exact absurd h (by simp)
      · split at h
        · cases h; simp
        · exact Nat.le_of_succ_le (ih (i + 1) r h)

/-- The global-match position list is non-overlapping: every match begins at
or after the end of the previous one (or one past it when the previous match
was empty). -/
theorem matchAllAux_chain (m : Matcher) (s : List Char) :
    ∀ (fuel start : Nat),
      (∀ pr ∈ matchAllAux m s start fuel, start ≤ pr.1)
      ∧ List.Chain' (fun a b : Nat × Nat => a.1 + max a.2 1 ≤ b.1)
          (matchAllAux m s start fuel) := by
  intro fuel
  induction fuel with
  | zero => intro start; simp [matchAllAux]
  | succ f ih =>
      intro start
      unfold matchAllAux
      cases hfm : firstMatchFrom m s start with
      | none => simp
      | some r =>
          obtain ⟨i, len⟩ := r
          have hge : start ≤ i := firstMatchAux_ge m s _ start (i, len) hfm
          constructor
          · intro pr hpr
            rcases List.mem_cons.mp hpr with h | h
            · subst h; exact hge
            · have := (ih (i + max len 1)).1 pr h
              omega
          · refine List.chain'_cons'.mpr ⟨?_, (ih (i + max len 1)).2⟩
            intro y hy
            have hmem : y ∈ matchAllAux m s (i + max len 1) f := List.mem_of_mem_head? hy
            have := (ih (i + max len 1)).1 y hmem
            omega

/-- Claim C2: in count mode, for every file and every pattern, all
non-overlapping occurrences in the whole file content are found (the match
list is not line-scoped and consecutive matches never overlap), each
occurrence is independently tested against the allowlist, and the output is
one line `name:count` per pattern, summed over all files, in PatternSet
definition order. -/
theorem claim_C2 (pats : List (String × Matcher)) (al : List Matcher)
    (files : List (String × List Char)) :
    countScan (pats.map (fun p => p.2)) al (files.map (fun f => f.2))
        = (pats.map (fun p => p.2)).map (refTotal al (files.map (fun f => f.2)))
    ∧ (countMode pats al files false none).stdout
        = List.zipWith (fun n c => n ++ ":" ++ toString c) (pats.map (fun p => p.1))
            ((pats.map (fun p => p.2)).map (refTotal al (files.map (fun f => f.2))))
    ∧ ∀ (m : Matcher) (s : List Char),
        List.Chain' (fun a b : Nat × Nat => a.1 + max a.2 1 ≤ b.1) (jsMatchAllPos m s) := by
  refine ⟨countScan_eq _ _ _, ?_, ?_⟩
  · simp only [countMode, Bool.not_false, if_pos rfl]
    rw [countScan_eq]
    rfl
  · intro m s
    exact (matchAllAux_chain m s (s.length + 1) 0).2

/-! ### Exit-status characterizations -/

theorem foldl_if_or {α : Type} (p : α → Prop) [DecidablePred p] :
    ∀ (l : List α) (b : Bool),
      l.foldl (fun h x => if p x then true else h) b
        = (b || l.any (fun x => decide (p x))) := by
  intro l
  induction l with
  | nil => simp
  | cons x xs ih =>
      intro b
      simp only [List.foldl_cons, List.any_cons, ih]
      by_cases h : p x <;> simp [h]

/-- The `hasNew` flag is set exactly when some pattern's current count
exceeds its baseline entry. -/
theorem hasNewFold_iff (names : List String) (counts : List Nat)
    (b : List (String × Int)) :
    hasNewFold names counts b = true ↔
      ∃ nc ∈ List.zip names counts, objGetD b nc.1 < Int.ofNat nc.2 := by
  unfold hasNewFold
  rw [foldl_if_or]
  simp only [Bool.false_or, List.any_eq_true, decide_eq_true_eq]
  constructor
  · rintro ⟨nc, hmem, h⟩; exact ⟨nc, hmem, by omega⟩
  · rintro ⟨nc, hmem, h⟩; exact ⟨nc, hmem, by omega⟩

/-- The status the delta branch computes, as a function of `hasNew`. -/
theorem countMode_delta_status (pats : List (String × Matcher)) (al : List Matcher)
    (files : List (String × List Char)) (b : List (String × Int)) :
    (countMode pats al files true (some (some (.jobj b)))).status
      = .exit (if hasNewFold (pats.map (fun p => p.1))
            (countScan (pats.map (fun p => p.2)) al (files.map (fun f => f.2))) b
          then 1 else 0) := rfl

/-- Claim C1: the exit status is 1 exactly when the total number of
unsuppressed matches is positive in listing mode and in count mode without a
baseline, and in baseline-delta mode exactly when some pattern has a positive
delta, independent of the absolute totals (the delta branch's status never
mentions the totals themselves). -/
theorem claim_C1 (pats : List (String × Matcher)) (al : List Matcher)
    (files : List (String × List Char)) (b : List (String × Int)) :
    (((listingMode pats al files).status = .exit 1 ↔
        0 < (listingRun pats al files).length)
      ∧ ((listingMode pats al files).status = .exit 0 ↔
        (listingRun pats al files).length = 0))
    ∧ (((countMode pats al files false none).status = .exit 1 ↔
        0 < (countScan (pats.map (fun p => p.2)) al (files.map (fun f => f.2))).sum)
      ∧ ((countMode pats al files false none).status = .exit 0 ↔
        (countScan (pats.map (fun p => p.2)) al (files.map (fun f => f.2))).sum = 0))
    ∧ (((countMode pats al files true (some (some (.jobj b)))).status = .exit 1 ↔
        ∃ nc ∈ List.zip (pats.map (fun p => p.1))
            (countScan (pats.map (fun p => p.2)) al (files.map (fun f => f.2))),
          objGetD b nc.1 < Int.ofNat nc.2)
      ∧ ((countMode pats al files true (some (some (.jobj b)))).status = .exit 0 ↔
        ¬ ∃ nc ∈ List.zip (pats.map (fun p => p.1))
            (countScan (pats.map (fun p => p.2)) al (files.map (fun f => f.2))),
          objGetD b nc.1 < Int.ofNat nc.2)) := by
  refine ⟨⟨?_, ?_⟩, ⟨?_, ?_⟩, ⟨?_, ?_⟩⟩
  · by_cases h : 0 < (listingRun pats al files).length <;>
      simp [listingMode, h]
  · by_cases h : 0 < (listingRun pats al files).length
    · simp [listingMode, h]
      intro hnil
      rw [hnil] at h
      simp at h
    · simp [listingMode, h]
      exact List.length_eq_zero.mp (by omega)
  · by_cases h :
      0 < (countScan (pats.map (fun p => p.2)) al (files.map (fun f => f.2))).sum <;>
      simp [countMode, h]
  · by_cases h :
      0 < (countScan (pats.map (fun p => p.2)) al (files.map (fun f => f.2))).sum <;>
      simp [countMode, h] <;> omega
  · rw [countMode_delta_status]
    by_cases h : hasNewFold (pats.map (fun p => p.1))
        (countScan (pats.map (fun p => p.2)) al (files.map (fun f => f.2))) b = true
    · rw [if_pos h]
      exact iff_of_true rfl ((hasNewFold_iff _ _ _).mp h)
    · rw [if_neg h]
      exact iff_of_false (by simp) (fun hex => h ((hasNewFold_iff _ _ _).mpr hex))
  · rw [countMode_delta_status]
    by_cases h : hasNewFold (pats.map (fun p => p.1))
        (countScan (pats.map (fun p => p.2)) al (files.map (fun f => f.2))) b = true
    · rw [if_pos h]
      exact iff_of_false (by simp) (fun hnex => hnex ((hasNewFold_iff _ _ _).mp h))
    · rw [if_neg h]
      exact iff_of_true rfl (fun hex => h ((hasNewFold_iff _ _ _).mpr hex))

/-! ### Lemmas about listing mode -/

theorem foldl_append_flatMap {α : Type} (g : α → List String) :
    ∀ (l : List α) (acc : List String),
      l.foldl (fun out x => out ++ g x) acc = acc ++ l.flatMap g := by
  intro l
  induction l with
  | nil => simp
  | cons x xs ih => intro acc; simp [ih]

/-- The line fold of `scanFile`, with its 1-based counter, produces the
flattened per-line entries with 1-based line numbers. -/
theorem listingFile_eq (pats : List (String × Matcher)) (al : List Matcher)
    (file : String) :
    ∀ (lines : List (List Char)) (acc : List String) (n : Nat),
      (lines.foldl
        (fun (st : List String × Nat) line =>
          (st.1 ++ lineEntries pats al file (st.2 + 1) line, st.2 + 1)) (acc, n)).1
      = acc ++ (List.enumFrom (n + 1) lines).flatMap
          (fun p => lineEntries pats al file p.1 p.2) := by
  intro lines
  induction lines with
  | nil => intro acc n; simp
  | cons l ls ih =>
      intro acc n
      simp only [List.foldl_cons, List.enumFrom, List.flatMap_cons]
      rw [ih]
      simp

/-- Whole-run restructuring: the accumulating folds equal a declarative
nested flatten over files, 1-based lines, and patterns, in that order. -/
theorem listingRun_eq (pats : List (String × Matcher)) (al : List Matcher)
    (files : List (String × List Char)) :
    listingRun pats al files
      = files.flatMap (fun fc =>
          (List.enumFrom 1 (jsSplitLines fc.2)).flatMap
            (fun p => lineEntries pats al fc.1 p.1 p.2)) := by
  unfold listingRun listingFile
  rw [foldl_append_flatMap]
  simp only [List.nil_append]
  congr 1
  funext fc
  exact listingFile_eq pats al fc.1 (jsSplitLines fc.2) [] 0

/-- The position search returns a genuine match and nothing matches at any
earlier position in the scanned range. -/
theorem firstMatchAux_min (m : Matcher) (s : List Char) :
    ∀ (fuel i : Nat) (r : Nat × Nat), firstMatchAux m s i fuel = some r →
      m.matchAt s r.1 = some r.2 ∧ ∀ j, i ≤ j → j < r.1 → m.matchAt s j = none := by
  intro fuel
  induction fuel with
  | zero => intro i r h; simp [firstMatchAux] at h
  | succ f ih =>
      intro i r h
      unfold firstMatchAux at h
      split at h
      · exact absurd h (by simp)
      · cases hma : m.matchAt s i with
        | some len =>
            rw [hma] at h
            cases h
            exact ⟨hma, fun j h1 h2 => by omega⟩
        | none =>
            rw [hma] at h
            obtain ⟨hr, hmin⟩ := ih (i + 1) r h
            refine ⟨hr, fun j h1 h2 => ?_⟩
            rcases Nat.eq_or_lt_of_le h1 with heq | hlt
            · rw [← heq]; exact hma
            · exact hmin j hlt h2

/-- Membership in the per-line entry list: exactly the patterns whose first
occurrence on the line is unsuppressed contribute, with the exact output
format. -/
theorem mem_lineEntries (pats : List (String × Matcher)) (al : List Matcher)
    (f : String) (ln : Nat) (line : List Char) (e : String) :
    e ∈ lineEntries pats al f ln line ↔
      ∃ nm ∈ pats, ∃ i len,
        firstMatchFrom nm.2 line 0 = some (i, len)
        ∧ suppressed al (sliceCs line i len) = false
        ∧ e = f ++ ":" ++ toString ln ++ ":" ++ nm.1 ++ ":" ++ String.mk (sliceCs line i len) := by
  unfold lineEntries
  rw [List.mem_filterMap]
  constructor
  · rintro ⟨nm, hmem, hsome⟩
    refine ⟨nm, hmem, ?_⟩
    cases hfm : firstMatchFrom nm.2 line 0 with
    | none => rw [hfm] at hsome; simp at hsome
    | some r =>
        obtain ⟨i, len⟩ := r
        rw [hfm] at hsome
        by_cases hs : suppressed al (sliceCs line i len) = true
        · simp [hs] at hsome
        · refine ⟨i, len, rfl, by simpa using hs, ?_⟩
          simp only [hs, Bool.false_eq_true, if_false, Option.some.injEq] at hsome
          exact hsome.symm
  · rintro ⟨nm, hmem, i, len, hfm, hs, he⟩
    exact ⟨nm, hmem, by simp [hfm, hs, he]⟩

/-- Claim C3: in listing mode, files are processed in traversal order, lines
in order with 1-based numbering, patterns in definition order; only the first
occurrence of a pattern on a line is tested, and every unsuppressed match is
emitted as one line `filePath:lineNumber:patternName:matchedText`. -/
theorem claim_C3 (pats : List (String × Matcher)) (al : List Matcher)
    (files : List (String × List Char)) :
    listingRun pats al files
      = files.flatMap (fun fc =>
          (List.enumFrom 1 (jsSplitLines fc.2)).flatMap
            (fun p => lineEntries pats al fc.1 p.1 p.2))
    ∧ (∀ (m : Matcher) (s : List Char) (i len : Nat),
        firstMatchFrom m s 0 = some (i, len) →
          m.matchAt s i = some len ∧ ∀ j, j < i → m.matchAt s j = none)
    ∧ (∀ e, e ∈ listingRun pats al files ↔
        ∃ fc ∈ files, ∃ p ∈ List.enumFrom 1 (jsSplitLines fc.2), ∃ nm ∈ pats, ∃ i len,
          firstMatchFrom nm.2 p.2 0 = some (i, len)
          ∧ suppressed al (sliceCs p.2 i len) = false
          ∧ e = fc.1 ++ ":" ++ toString p.1 ++ ":" ++ nm.1 ++ ":" ++ String.mk (sliceCs p.2 i len)) := by
  refine ⟨listingRun_eq pats al files, ?_, ?_⟩
  · intro m s i len h
    have := firstMatchAux_min m s (s.length + 1 - 0) 0 (i, len) h
    exact ⟨this.1, fun j hj => this.2 j (Nat.zero_le j) hj⟩
  · intro e
    rw [listingRun_eq]
    simp only [List.mem_flatMap]
    constructor
    · rintro ⟨fc, hfc, p, hp, he⟩
      obtain ⟨nm, hnm, i, len, h1, h2, h3⟩ := (mem_lineEntries pats al fc.1 p.1 p.2 e).mp he
      exact ⟨fc, hfc, p, hp, nm, hnm, i, len, h1, h2, h3⟩
    · rintro ⟨fc, hfc, p, hp, nm, hnm, i, len, h1, h2, h3⟩
      exact ⟨fc, hfc, p, hp,
        (mem_lineEntries pats al fc.1 p.1 p.2 e).mpr ⟨nm, hnm, i, len, h1, h2, h3⟩⟩

/-! ### Cross-mode consistency of allowlist suppression -/

theorem foldl_add_sum {α : Type} (f : α → Nat) :
    ∀ (l : List α) (a : Nat), l.foldl (fun acc x => acc + f x) a = a + (l.map f).sum := by
  intro l
  induction l with
  | nil => simp
  | cons x xs ih => intro a; simp [ih]; omega

theorem map_ext {α β : Type} (l : List α) (f g : α → β) (h : ∀ x, f x = g x) :
    l.map f = l.map g := by
  induction l with
  | nil => rfl
  | cons x xs ih => simp [h, ih]

/-- Per-file summary total equals the sum over patterns of unsuppressed
occurrence counts. -/
theorem summaryFileCount_eq (pats : List Matcher) (al : List Matcher)
    (content : List Char) :
    summaryFileCount pats al content
      = (pats.map (fun m => unsuppCount al m content)).sum := by
  unfold summaryFileCount
  rw [foldl_add_sum]
  simp only [Nat.zero_add]
  congr 1
  exact map_ext pats _ _ (fun m => fileAdd_eq al content m)

theorem sum_map_add {α : Type} (l : List α) (f g : α → Nat) :
    (l.map (fun x => f x + g x)).sum = (l.map f).sum + (l.map g).sum := by
  induction l with
  | nil => simp
  | cons x xs ih => simp [ih]; omega

theorem sum_map_swap {α β : Type} (l1 : List α) (l2 : List β) (f : α → β → Nat) :
    (l1.map (fun a => (l2.map (f a)).sum)).sum
      = (l2.map (fun b => (l1.map (fun a => f a b)).sum)).sum := by
  induction l1 with
  | nil => simp
  | cons a as ih =>
      simp only [List.map_cons, List.sum_cons, ih, ← sum_map_add]

/-- Claim C6: allowlist suppression is consistent across modes. A fragment
whose first line occurrence is suppressed produces no listing entry; in count
and summary modes the per-occurrence counters only ever count unsuppressed
occurrences (so a suppressed occurrence contributes to nothing, exactly as if
it never matched); and the count-mode global total equals the sum of the
summary-mode per-file totals. -/
theorem claim_C6 (pats : List (String × Matcher)) (al : List Matcher)
    (files : List (String × List Char))
    (m : Matcher) (line : List Char) (name f : String) (ln i len : Nat)
    (hfm : firstMatchFrom m line 0 = some (i, len))
    (hsup : suppressed al (sliceCs line i len) = true) :
    lineEntries [(name, m)] al f ln line = []
    ∧ (∀ (mm : Matcher) (c : List Char),
        fileAdd al c mm = ((jsMatchAll mm c).filter (fun t => !suppressed al t)).length)
    ∧ (∀ c : List Char, summaryFileCount (pats.map (fun p => p.2)) al c
        = ((pats.map (fun p => p.2)).map (fun mm => unsuppCount al mm c)).sum)
    ∧ (countScan (pats.map (fun p => p.2)) al (files.map (fun fc => fc.2))).sum
        = (files.map (fun fc => summaryFileCount (pats.map (fun p => p.2)) al fc.2)).sum := by
  refine ⟨?_, ?_, ?_, ?_⟩
  · simp [lineEntries, hfm, hsup]
  · intro mm c
    exact fileAdd_eq al c mm
  · intro c
    exact summaryFileCount_eq _ al c
  · rw [countScan_eq]
    unfold refTotal
    rw [sum_map_swap, List.map_map]
    congr 1
    refine map_ext files _ _ (fun fc => ?_)
    simp only [Function.comp_apply]
    exact (summaryFileCount_eq (pats.map (fun p => p.2)) al fc.2).symm

/-- Witness for claim C6 at a concrete suppressed fragment. -/
theorem claim_C6_witness :
    firstMatchFrom (litM "x".data) "axb".data 0 = some (1, 1)
    ∧ suppressed [litM "x".data] (sliceCs "axb".data 1 1) = true
    ∧ lineEntries [("P", litM "x".data)] [litM "x".data] "f.md" 1 "axb".data = [] := by
  refine ⟨by decide, by decide, ?_⟩
  exact (claim_C6 [] [litM "x".data] [] (litM "x".data) "axb".data "P" "f.md" 1 1 1
    (by decide) (by decide)).1

/-! ### Baseline error handling and the baseline round trip -/

/-- Claim C9: when the stored baseline file exists but is not valid JSON, the
run prints a descriptive message and exits 2, writes nothing to stdout and
does not write or overwrite the baseline file. -/
theorem claim_C9 (pats : List (String × Matcher)) (al : List Matcher)
    (files : List (String × List Char)) :
    countMode pats al files true (some none)
      = ⟨[], true, none, .exit 2⟩ := rfl

theorem objGetD_objSet_self (l : List (String × Int)) (k : String) (v : Int) :
    objGetD (objSet l k v) k = v := by
  induction l with
  | nil => simp [objSet, objGetD]
  | cons p rest ih =>
      by_cases h : p.1 == k
      · simp [objSet, h, objGetD]
      · simp [objSet, h, objGetD, ih]

theorem objGetD_objSet_other (l : List (String × Int)) (k k' : String) (v : Int)
    (h : k' ≠ k) :
    objGetD (objSet l k v) k' = objGetD l k' := by
  have hk : ¬ (k == k') = true := by
    simp only [beq_iff_eq]
    exact fun he => h he.symm
  induction l with
  | nil => simp [objSet, objGetD, hk]
  | cons p rest ih =>
      by_cases hp : (p.1 == k) = true
      · have hpk : p.1 = k := by simpa using hp
        have hpk' : ¬ (p.1 == k') = true := by
          simp only [beq_iff_eq, hpk]
          exact fun he => h he.symm
        simp [objSet, hp, objGetD, hk, hpk']
      · simp [objSet, hp, objGetD, ih]

theorem foldl_objSet_not_mem (pairs : List (String × Nat)) (k : String)
    (h : k ∉ pairs.map Prod.fst) :
    ∀ acc, objGetD
        (pairs.foldl (fun a nc => objSet a nc.1 (Int.ofNat nc.2)) acc) k
      = objGetD acc k := by
  induction pairs with
  | nil => intro acc; rfl
  | cons p rest ih =>
      intro acc
      simp only [List.map_cons, List.mem_cons, not_or] at h
      simp only [List.foldl_cons]
      rw [ih h.2]
      exact objGetD_objSet_other acc p.1 k (Int.ofNat p.2) h.1

/-- With pairwise-distinct keys, the seeding fold persists every pair's value
verbatim. -/
theorem seed_fold_lookup (pairs : List (String × Nat))
    (hnd : (pairs.map Prod.fst).Nodup) :
    ∀ acc, ∀ nc ∈ pairs,
      objGetD (pairs.foldl (fun a p => objSet a p.1 (Int.ofNat p.2)) acc) nc.1
        = Int.ofNat nc.2 := by
  induction pairs with
  | nil => intro acc nc h; simp at h
  | cons p rest ih =>
      intro acc nc hmem
      simp only [List.map_cons, List.nodup_cons] at hnd
      simp only [List.foldl_cons]
      rcases List.mem_cons.mp hmem with h | h
      · subst h
        rw [foldl_objSet_not_mem rest nc.1 hnd.1]
        exact objGetD_objSet_self acc nc.1 (Int.ofNat nc.2)
      · exact ih hnd.2 (objSet acc p.1 (Int.ofNat p.2)) nc h

/-- Claim C4 (amended): when the pattern names are pairwise distinct, a
baseline-delta run with no stored baseline persists the current totals
verbatim and exits 0, and an immediate re-run over the same unmodified corpus
sees delta 0 for every pattern and exits 0. -/
theorem claim_C4 (pats : List (String × Matcher)) (al : List Matcher)
    (files : List (String × List Char))
    (hnd : (pats.map (fun p => p.1)).Nodup) :
    countMode pats al files true none
      = ⟨[], false, some (seedBaseline (pats.map (fun p => p.1))
          (countScan (pats.map (fun p => p.2)) al (files.map (fun f => f.2)))), .exit 0⟩
    ∧ (∀ nc ∈ List.zip (pats.map (fun p => p.1))
          (countScan (pats.map (fun p => p.2)) al (files.map (fun f => f.2))),
        objGetD (seedBaseline (pats.map (fun p => p.1))
            (countScan (pats.map (fun p => p.2)) al (files.map (fun f => f.2)))) nc.1
          = Int.ofNat nc.2)
    ∧ (countMode pats al files true (some (some (.jobj
          (seedBaseline (pats.map (fun p => p.1))
            (countScan (pats.map (fun p => p.2)) al (files.map (fun f => f.2)))))))).status
        = .exit 0 := by
  have hlen : (pats.map (fun p => p.1)).length
      ≤ (countScan (pats.map (fun p => p.2)) al (files.map (fun f => f.2))).length := by
    rw [countScan_eq]
    simp
  have hzipnd : ((List.zip (pats.map (fun p => p.1))
      (countScan (pats.map (fun p => p.2)) al (files.map (fun f => f.2)))).map
        Prod.fst).Nodup := by
    rw [List.map_fst_zip _ _ hlen]
    exact hnd
  have hlook : ∀ nc ∈ List.zip (pats.map (fun p => p.1))
      (countScan (pats.map (fun p => p.2)) al (files.map (fun f => f.2))),
      objGetD (seedBaseline (pats.map (fun p => p.1))
          (countScan (pats.map (fun p => p.2)) al (files.map (fun f => f.2)))) nc.1
        = Int.ofNat nc.2 := by
    intro nc hmem
    exact seed_fold_lookup _ hzipnd [] nc hmem
  refine ⟨rfl, hlook, ?_⟩
  rw [countMode_delta_status, if_neg]
  intro hnew
  obtain ⟨nc, hmem, hlt⟩ := (hasNewFold_iff _ _ _).mp hnew
  rw [hlook nc hmem] at hlt
  omega

/-- Counterexample to claim C4 as stated: with the duplicate pattern name
`A` (the data model allows duplicates), the seeding run stores only the last
duplicate's count, so an immediate re-run over the same unmodified corpus
reports a positive delta for the first duplicate and exits 1, not 0. -/
theorem claim_C4_cex :
    (countMode [("A", litM "b".data), ("A", litM "ab".data)] []
        [("f.md", "ab ab b".data)] true none).status = .exit 0
    ∧ (countMode [("A", litM "b".data), ("A", litM "ab".data)] []
        [("f.md", "ab ab b".data)] true none).written = some [("A", 2)]
    ∧ (countMode [("A", litM "b".data), ("A", litM "ab".data)] []
        [("f.md", "ab ab b".data)] true
        (some (some (.jobj ((countMode [("A", litM "b".data), ("A", litM "ab".data)] []
            [("f.md", "ab ab b".data)] true none).written.getD []))))).status
      = .exit 1 := by decide

/-- Witness for claim C4 at a concrete corpus with distinct pattern names. -/
theorem claim_C4_witness :
    ((countMode [("A", litM "b".data), ("B", litM "ab".data)] []
        [("f.md", "ab ab b".data)] true none).written
      = some [("A", 3), ("B", 2)])
    ∧ (countMode [("A", litM "b".data), ("B", litM "ab".data)] []
        [("f.md", "ab ab b".data)] true
        (some (some (.jobj [("A", 3), ("B", 2)])))).status = .exit 0 := by
  have h := claim_C4 [("A", litM "b".data), ("B", litM "ab".data)] []
    [("f.md", "ab ab b".data)] (by decide)
  refine ⟨?_, ?_⟩
  · rw [h.1]
    decide
  · have h3 := h.2.2
    have hseed : seedBaseline
        ([("A", litM "b".data), ("B", litM "ab".data)].map (fun p => p.1))
        (countScan ([("A", litM "b".data), ("B", litM "ab".data)].map (fun p => p.2)) []
          ([("f.md", "ab ab b".data)].map (fun f => f.2)))
        = [("A", 3), ("B", 2)] := by decide
    rw [hseed] at h3
    exact h3

/-! ### Glob semantics -/

/-- The compiled `**` token matches exactly the strings free of line
terminators, since the JavaScript dot never matches one. -/
theorem globMatch_deep_iff (s : List Char) :
    globMatch [GlobTok.deep] s = s.all jsDotChar := by
  induction s with
  | nil => simp [globMatch]
  | cons c rest ih => simp [globMatch, ih]

theorem globMatch_star_iff (s : List Char) :
    globMatch [GlobTok.star] s = s.all (fun c => c != '/') := by
  induction s with
  | nil => simp [globMatch]
  | cons c rest ih => simp [globMatch, ih]

theorem globMatch_qmark_iff (s : List Char) :
    globMatch [GlobTok.qmark] s
      = match s with
        | [c] => c != '/'
        | _ => false := by
  match s with
  | [] => simp [globMatch]
  | [c] => simp [globMatch]
  | c :: d :: rest => simp [globMatch]

/-- With no `*` or `?`, the translation loop emits every character as a
literal token. -/
theorem globTokens_lit (cs : List Char) (h : ∀ c ∈ cs, c ≠ '*' ∧ c ≠ '?') :
    globTokens cs = cs.map GlobTok.lit := by
  induction cs with
  | nil => rfl
  | cons c rest ih =>
      have hc := h c (by simp)
      have hrest : ∀ x ∈ rest, x ≠ '*' ∧ x ≠ '?' := fun x hx => h x (by simp [hx])
      rw [globTokens.eq_def]
      split
      · simp_all
      · simp_all
      · simp_all
      · next heq =>
          rw [List.cons.injEq] at heq
          exact absurd heq.1 hc.2
      · next heq =>
          rw [List.cons.injEq] at heq
          obtain ⟨h1, h2⟩ := heq
          subst h1
          subst h2
          rw [List.map_cons, ih hrest]

/-- A token list of pure literals performs an anchored whole-string
comparison. -/
theorem globMatch_lits (cs : List Char) :
    ∀ s : List Char, globMatch (cs.map GlobTok.lit) s = (s == cs) := by
  induction cs with
  | nil =>
      intro s
      cases s with
      | nil => simp [globMatch]
      | cons d ds => simp [globMatch]
  | cons c cr ih =>
      intro s
      cases s with
      | nil => simp [globMatch]
      | cons d ds =>
          simp only [List.map_cons, globMatch, ih, List.cons_beq_cons]
          by_cases h : c = d
          · subst h
            rfl
          · have h1 : (c == d) = false := by simp [h]
            have h2 : (d == c) = false := by
              simp only [beq_eq_false_iff_ne, ne_eq]
              exact fun he => h he.symm
            rw [h1, h2]

/-- A glob not starting with `/` compiles through the translation loop
unchanged. -/
theorem globCompile_no_slash (cs : List Char) (h : cs.head? ≠ some '/') :
    globCompile cs = globTokens cs := by
  cases cs with
  | nil => rfl
  | cons c rest =>
      rw [globCompile.eq_def]
      split
      · next heq =>
          rw [List.cons.injEq] at heq
          exact absurd (by simp [heq.1]) h
      · rfl

/-- Claim C5 (amended): glob-to-matcher semantics. `**` (compiled to a `.*`
with no `s` flag) matches any characters including `/` except the JavaScript
line terminators; a lone `*` matches any characters except `/`; `?` matches
exactly one non-`/` character; a glob of ordinary characters (no `*`, `?`,
or leading `/`) matches exactly itself, literally and anchored at both ends;
a leading `/` is stripped before compilation; and through the ignore rules a
slash-containing rule is tested against the full relative path while a
slash-free rule is tested against the base name, so `a/**` matches
`a/b/c.md`, plain `a/*` does not, and `*.tmp` matches by base name at any
depth. -/
theorem claim_C5 :
    (∀ s : List Char, globMatch (globCompile "**".data) s = s.all jsDotChar)
    ∧ (∀ s : List Char, globMatch (globCompile "*".data) s = s.all (fun c => c != '/'))
    ∧ (∀ s : List Char, globMatch (globCompile "?".data) s
        = match s with
          | [c] => c != '/'
          | _ => false)
    ∧ (∀ g : List Char, globCompile ('/' :: g) = globTokens g)
    ∧ (∀ cs : List Char, (∀ c ∈ cs, c ≠ '*' ∧ c ≠ '?') → cs.head? ≠ some '/' →
        ∀ s : List Char, globMatch (globCompile cs) s = (s == cs))
    ∧ isIgnoredModel ["a/**"] "a/b/c.md" = true
    ∧ isIgnoredModel ["a/*"] "a/b/c.md" = false
    ∧ isIgnoredModel ["*.tmp"] "x/y/z.tmp" = true := by
  refine ⟨?_, ?_, ?_, ?_, ?_, ?_, ?_, ?_⟩
  · intro s
    have : globCompile "**".data = [GlobTok.deep] := rfl
    rw [this]
    exact globMatch_deep_iff s
  · intro s
    have : globCompile "*".data = [GlobTok.star] := rfl
    rw [this]
    exact globMatch_star_iff s
  · intro s
    have : globCompile "?".data = [GlobTok.qmark] := rfl
    rw [this]
    exact globMatch_qmark_iff s
  · intro g
    rfl
  · intro cs h1 h2 s
    rw [globCompile_no_slash cs h2, globTokens_lit cs h1]
    exact globMatch_lits cs s
  · simp [isIgnoredModel, ruleMatches, globTest, globCompile, globTokens, basenameOf,
      basenameAux, hasSlash, globMatch, jsDotChar]
  · simp [isIgnoredModel, ruleMatches, globTest, globCompile, globTokens, basenameOf,
      basenameAux, hasSlash, globMatch]
  · simp [isIgnoredModel, ruleMatches, globTest, globCompile, globTokens, basenameOf,
      basenameAux, hasSlash, globMatch]

/-- Witness for claim C5's literal clause at a concrete metacharacter-laden
glob: `a(b.c` matches exactly itself and nothing else. -/
theorem claim_C5_witness :
    globMatch (globCompile "a(b.c".data) "a(b.c".data = true
    ∧ globMatch (globCompile "a(b.c".data) "xa(b.c".data = false := by
  have h1 := claim_C5.2.2.2.2.1 "a(b.c".data (by decide) (by decide) "a(b.c".data
  have h2 := claim_C5.2.2.2.2.1 "a(b.c".data (by decide) (by decide) "xa(b.c".data
  refine ⟨?_, ?_⟩
  · rw [h1]; decide
  · rw [h2]; decide

/-- Counterexample to claim C5 as stated: the source compiles `**` to `.*`
without the `s` flag, and a JavaScript dot never matches a line terminator,
so the compiled `**` matcher rejects a bare newline and an ignore rule `**`
fails to match a path containing one — `**` does not match zero or more
arbitrary characters. -/
theorem claim_C5_cex :
    globMatch (globCompile "**".data) "\n".data = false
    ∧ isIgnoredModel ["**"] "a\nb" = false := by
  constructor
  · simp [globCompile, globTokens, globMatch, jsDotChar]
  · simp [isIgnoredModel, ruleMatches, globTest, globCompile, globTokens, basenameOf,
      basenameAux, hasSlash, globMatch, jsDotChar]

/-! ### Summary-mode rollup and ordering -/

theorem mapGetD_mapSet_self (l : List (String × Nat)) (k : String) (v : Nat) :
    mapGetD (mapSet l k v) k 0 = v := by
  induction l with
  | nil => simp [mapSet, mapGetD]
  | cons p rest ih =>
      by_cases h : (p.1 == k) = true
      · simp [mapSet, h, mapGetD]
      · simp [mapSet, h, mapGetD, ih]

theorem mapGetD_mapSet_other (l : List (String × Nat)) (k k' : String) (v : Nat)
    (h : k' ≠ k) :
    mapGetD (mapSet l k v) k' 0 = mapGetD l k' 0 := by
  have hk : ¬ (k == k') = true := by
    simp only [beq_iff_eq]
    exact fun he => h he.symm
  induction l with
  | nil => simp [mapSet, mapGetD, hk]
  | cons p rest ih =>
      by_cases hp : (p.1 == k) = true
      · have hpk : p.1 = k := by simpa using hp
        have hpk' : ¬ (p.1 == k') = true := by
          simp only [beq_iff_eq, hpk]
          exact fun he => h he.symm
        simp [mapSet, hp, mapGetD, hk, hpk']
      · simp [mapSet, hp, mapGetD, ih]

theorem mapSet_cons_pos (q : String × Nat) (rest : List (String × Nat))
    (k : String) (v : Nat) (h : (q.1 == k) = true) :
    mapSet (q :: rest) k v = (k, v) :: rest := by
  rw [show mapSet (q :: rest) k v
      = if q.1 == k then (k, v) :: rest else (q.1, q.2) :: mapSet rest k v from rfl]
  rw [if_pos h]

theorem mapSet_cons_neg (q : String × Nat) (rest : List (String × Nat))
    (k : String) (v : Nat) (h : ¬ (q.1 == k) = true) :
    mapSet (q :: rest) k v = q :: mapSet rest k v := by
  rw [show mapSet (q :: rest) k v
      = if q.1 == k then (k, v) :: rest else (q.1, q.2) :: mapSet rest k v from rfl]
  rw [if_neg h]

theorem mem_mapSet (l : List (String × Nat)) (k : String) (v : Nat) :
    ∀ p ∈ mapSet l k v, p ∈ l ∨ p = (k, v) := by
  induction l with
  | nil =>
      intro p hp
      simp only [mapSet, List.mem_singleton] at hp
      exact Or.inr hp
  | cons q rest ih =>
      intro p hp
      by_cases h : (q.1 == k) = true
      · rw [mapSet_cons_pos q rest k v h] at hp
        rcases List.mem_cons.mp hp with h1 | h1
        · exact Or.inr h1
        · exact Or.inl (List.mem_cons_of_mem q h1)
      · rw [mapSet_cons_neg q rest k v h] at hp
        rcases List.mem_cons.mp hp with h1 | h1
        · exact Or.inl (by rw [h1]; exact List.mem_cons_self q rest)
        · rcases ih p h1 with h2 | h2
          · exact Or.inl (List.mem_cons_of_mem q h2)
          · exact Or.inr h2

theorem mapSet_keys (l : List (String × Nat)) (k : String) (v : Nat) :
    ∀ k', k' ∈ (mapSet l k v).map Prod.fst ↔ (k' ∈ l.map Prod.fst ∨ k' = k) := by
  induction l with
  | nil => intro k'; simp [mapSet]
  | cons q rest ih =>
      intro k'
      by_cases h : (q.1 == k) = true
      · have hqk : q.1 = k := by simpa using h
        rw [mapSet_cons_pos q rest k v h]
        simp only [List.map_cons, List.mem_cons]
        constructor
        · rintro (h1 | h1)
          · exact Or.inr h1
          · exact Or.inl (Or.inr h1)
        · rintro (h1 | h1)
          · rcases h1 with h2 | h2
            · exact Or.inl (by rw [h2, hqk])
            · exact Or.inr h2
          · exact Or.inl h1
      · rw [mapSet_cons_neg q rest k v h]
        simp only [List.map_cons, List.mem_cons, ih k']
        tauto

theorem mapSet_keys_nodup (l : List (String × Nat)) (k : String) (v : Nat)
    (h : (l.map Prod.fst).Nodup) :
    ((mapSet l k v).map Prod.fst).Nodup := by
  induction l with
  | nil => simp [mapSet]
  | cons q rest ih =>
      simp only [List.map_cons, List.nodup_cons] at h
      by_cases hq : (q.1 == k) = true
      · have hqk : q.1 = k := by simpa using hq
        rw [mapSet_cons_pos q rest k v hq]
        simp only [List.map_cons, List.nodup_cons]
        exact ⟨by rw [← hqk]; exact h.1, h.2⟩
      · have hqk : q.1 ≠ k := by simpa using hq
        rw [mapSet_cons_neg q rest k v hq]
        simp only [List.map_cons, List.nodup_cons]
        refine ⟨?_, ih h.2⟩
        rw [mapSet_keys rest k v q.1]
        rintro (h1 | h1)
        · exact h.1 h1
        · exact hqk h1

theorem lookup_of_mem_nodup (l : List (String × Nat))
    (h : (l.map Prod.fst).Nodup) :
    ∀ p ∈ l, mapGetD l p.1 0 = p.2 := by
  induction l with
  | nil => intro p hp; simp at hp
  | cons q rest ih =>
      intro p hp
      simp only [List.map_cons, List.nodup_cons] at h
      rcases List.mem_cons.mp hp with h1 | h1
      · subst h1
        simp [mapGetD]
      · have hne : ¬ (q.1 == p.1) = true := by
          simp only [beq_iff_eq]
          intro he
          exact h.1 (he ▸ List.mem_map_of_mem Prod.fst h1)
        simp only [mapGetD, hne, if_false]
        exact ih h.2 p h1

/-- The rollup fold's lookup invariant: after folding, each group key holds
its starting value plus the sum of the counts of the files mapped to it. -/
theorem dirCounts_lookup (fcs : List (String × Nat)) :
    ∀ (acc : List (String × Nat)) (g : String),
      mapGetD (fcs.foldl (fun a fc =>
          mapSet a (groupOf fc.1) (mapGetD a (groupOf fc.1) 0 + fc.2)) acc) g 0
        = mapGetD acc g 0
            + ((fcs.filter (fun fc => groupOf fc.1 == g)).map Prod.snd).sum := by
  induction fcs with
  | nil => intro acc g; simp
  | cons fc rest ih =>
      intro acc g
      simp only [List.foldl_cons]
      rw [ih]
      by_cases h : (groupOf fc.1 == g) = true
      · have hg : groupOf fc.1 = g := by simpa using h
        simp only [List.filter_cons]
        rw [if_pos h]
        simp only [List.map_cons, List.sum_cons]
        rw [hg, mapGetD_mapSet_self]
        omega
      · have hg : g ≠ groupOf fc.1 := by
          simp only [beq_iff_eq] at h
          exact fun he => h he.symm
        simp only [List.filter_cons]
        rw [if_neg h]
        rw [mapGetD_mapSet_other acc (groupOf fc.1) g _ hg]

/-- The rollup fold keeps its keys pairwise distinct. -/
theorem dirCounts_keys_nodup (fcs : List (String × Nat)) :
    ∀ (acc : List (String × Nat)), (acc.map Prod.fst).Nodup →
      ((fcs.foldl (fun a fc =>
          mapSet a (groupOf fc.1) (mapGetD a (groupOf fc.1) 0 + fc.2)) acc).map
        Prod.fst).Nodup := by
  induction fcs with
  | nil => intro acc h; exact h
  | cons fc rest ih =>
      intro acc h
      simp only [List.foldl_cons]
      exact ih _ (mapSet_keys_nodup acc (groupOf fc.1) _ h)

/-- Code-point order is total. -/
theorem csLe_total : ∀ x y : List Char, csLe x y = true ∨ csLe y x = true := by
  intro x
  induction x with
  | nil => intro y; exact Or.inl rfl
  | cons a as ih =>
      intro y
      cases y with
      | nil => exact Or.inr rfl
      | cons b bs =>
          simp only [csLe, Bool.or_eq_true, Bool.and_eq_true, decide_eq_true_eq,
            beq_iff_eq]
          rcases Nat.lt_trichotomy a.toNat b.toNat with h | h | h
          · exact Or.inl (Or.inl h)
          · rcases ih bs with h2 | h2
            · exact Or.inl (Or.inr ⟨h, h2⟩)
            · exact Or.inr (Or.inr ⟨h.symm, h2⟩)
          · exact Or.inr (Or.inl h)

/-- Code-point order is transitive. -/
theorem csLe_trans : ∀ x y z : List Char,
    csLe x y = true → csLe y z = true → csLe x z = true := by
  intro x
  induction x with
  | nil => intro y z _ _; rfl
  | cons a as ih =>
      intro y z hxy hyz
      cases y with
      | nil => simp [csLe] at hxy
      | cons b bs =>
          cases z with
          | nil => simp [csLe] at hyz
          | cons c cs =>
              simp only [csLe, Bool.or_eq_true, Bool.and_eq_true,
                decide_eq_true_eq, beq_iff_eq] at hxy hyz ⊢
              rcases hxy with h1 | ⟨h1, h1'⟩
              · rcases hyz with h2 | ⟨h2, _⟩
                · exact Or.inl (Nat.lt_trans h1 h2)
                · exact Or.inl (h2 ▸ h1)
              · rcases hyz with h2 | ⟨h2, h2'⟩
                · exact Or.inl (h1 ▸ h2)
                · exact Or.inr ⟨h1.trans h2, ih bs cs h1' h2'⟩

instance : IsTotal (String × Nat) rowLeP := by
  constructor
  intro a b
  unfold rowLeP rowLe
  simp only [Bool.or_eq_true, Bool.and_eq_true, decide_eq_true_eq, beq_iff_eq]
  rcases Nat.lt_trichotomy a.2 b.2 with h | h | h
  · exact Or.inr (Or.inl h)
  · rcases csLe_total a.1.data b.1.data with h2 | h2
    · exact Or.inl (Or.inr ⟨h, h2⟩)
    · exact Or.inr (Or.inr ⟨h.symm, h2⟩)
  · exact Or.inl (Or.inl h)

instance : IsTrans (String × Nat) rowLeP := by
  constructor
  intro a b c hab hbc
  unfold rowLeP rowLe at hab hbc ⊢
  simp only [Bool.or_eq_true, Bool.and_eq_true, decide_eq_true_eq, beq_iff_eq]
    at hab hbc ⊢
  rcases hab with h1 | ⟨h1, h1'⟩
  · rcases hbc with h2 | ⟨h2, _⟩
    · exact Or.inl (Nat.lt_trans h2 h1)
    · exact Or.inl (h2 ▸ h1)
  · rcases hbc with h2 | ⟨h2, h2'⟩
    · exact Or.inl (h1 ▸ h2)
    · exact Or.inr ⟨h1.trans h2, csLe_trans _ _ _ h1' h2'⟩

/-- Every entry of the nonzero file-count map comes from a file of the list,
carries that file's summary count, and is positive. -/
theorem fileCounts_sound (pats : List Matcher) (al : List Matcher)
    (files : List (String × List Char)) :
    ∀ (acc : List (String × Nat)),
      (∀ p ∈ acc, 0 < p.2 ∧ ∃ fc ∈ files, p.1 = fc.1 ∧ p.2 = summaryFileCount pats al fc.2) →
      ∀ p ∈ files.foldl (fun a fc =>
          let n := summaryFileCount pats al fc.2
          if n > 0 then mapSet a fc.1 n else a) acc,
        0 < p.2 ∧ ∃ fc ∈ files, p.1 = fc.1 ∧ p.2 = summaryFileCount pats al fc.2 := by
  have main : ∀ (fs : List (String × List Char)), (∀ fc ∈ fs, fc ∈ files) →
      ∀ (acc : List (String × Nat)),
      (∀ p ∈ acc, 0 < p.2 ∧ ∃ fc ∈ files, p.1 = fc.1 ∧ p.2 = summaryFileCount pats al fc.2) →
      ∀ p ∈ fs.foldl (fun a fc =>
          let n := summaryFileCount pats al fc.2
          if n > 0 then mapSet a fc.1 n else a) acc,
        0 < p.2 ∧ ∃ fc ∈ files, p.1 = fc.1 ∧ p.2 = summaryFileCount pats al fc.2 := by
    intro fs
    induction fs with
    | nil => intro _ acc hacc p hp; exact hacc p hp
    | cons fc rest ih =>
        intro hsub acc hacc p hp
        simp only [List.foldl_cons] at hp
        refine ih (fun x hx => hsub x (List.mem_cons_of_mem fc hx)) _ ?_ p hp
        intro q hq
        by_cases hn : summaryFileCount pats al fc.2 > 0
        · rw [if_pos hn] at hq
          rcases mem_mapSet acc fc.1 _ q hq with h1 | h1
          · exact hacc q h1
          · refine ⟨by rw [h1]; exact hn, fc, hsub fc (List.mem_cons_self fc rest), ?_, ?_⟩
            · rw [h1]
            · rw [h1]
        · rw [if_neg hn] at hq
          exact hacc q hq
  exact main files (fun fc h => h)

/-- A file whose summary count is positive ends up among the file-count
map's keys. -/
theorem fileCounts_complete (pats : List Matcher) (al : List Matcher) :
    ∀ (fs : List (String × List Char)) (acc : List (String × Nat)) (fc : String × List Char),
      fc ∈ fs → 0 < summaryFileCount pats al fc.2 →
      fc.1 ∈ (fs.foldl (fun a f =>
          let n := summaryFileCount pats al f.2
          if n > 0 then mapSet a f.1 n else a) acc).map Prod.fst := by
  have keys_mono : ∀ (fs : List (String × List Char)) (acc : List (String × Nat)) (k : String),
      k ∈ acc.map Prod.fst →
      k ∈ (fs.foldl (fun a f =>
          let n := summaryFileCount pats al f.2
          if n > 0 then mapSet a f.1 n else a) acc).map Prod.fst := by
    intro fs
    induction fs with
    | nil => intro acc k h; exact h
    | cons f rest ih =>
        intro acc k h
        simp only [List.foldl_cons]
        refine ih _ k ?_
        by_cases hn : summaryFileCount pats al f.2 > 0
        · rw [if_pos hn]
          exact (mapSet_keys acc f.1 _ k).mpr (Or.inl h)
        · rw [if_neg hn]
          exact h
  intro fs
  induction fs with
  | nil => intro acc fc h; simp at h
  | cons f rest ih =>
      intro acc fc hmem hpos
      rcases List.mem_cons.mp hmem with h | h
      · subst h
        simp only [List.foldl_cons]
        refine keys_mono rest _ fc.1 ?_
        rw [if_pos hpos]
        exact (mapSet_keys acc fc.1 _ fc.1).mpr (Or.inr rfl)
      · simp only [List.foldl_cons]
        exact ih _ fc h hpos

/-- Claim C7: in summary mode every file with a nonzero count is grouped by
the first two directory segments of its relative path; each directory group's
count is the sum of the counts of the files mapped into it; both row lists
are sorted by descending count then ascending name; and the file rows are
truncated to at most 10 entries drawn from the nonzero-count files. -/
theorem claim_C7 (pats : List Matcher) (al : List Matcher)
    (files : List (String × List Char)) :
    (∀ pr ∈ dirRowsOf (fileCountsList pats al files),
        pr.2 = (((fileCountsList pats al files).filter
            (fun fc => groupOf fc.1 == pr.1)).map Prod.snd).sum)
    ∧ List.Sorted rowLeP (dirRowsOf (fileCountsList pats al files))
    ∧ List.Sorted rowLeP (fileRowsOf (fileCountsList pats al files))
    ∧ (fileRowsOf (fileCountsList pats al files)).length ≤ 10
    ∧ (∀ pr ∈ fileRowsOf (fileCountsList pats al files),
        pr ∈ fileCountsList pats al files)
    ∧ (∀ pr ∈ fileCountsList pats al files,
        0 < pr.2 ∧ ∃ fc ∈ files, pr.1 = fc.1 ∧ pr.2 = summaryFileCount pats al fc.2)
    ∧ (∀ fc ∈ files, 0 < summaryFileCount pats al fc.2 →
        fc.1 ∈ (fileCountsList pats al files).map Prod.fst) := by
  have hdfold : dirCountsList (fileCountsList pats al files)
      = (fileCountsList pats al files).foldl
          (fun a fc => mapSet a (groupOf fc.1) (mapGetD a (groupOf fc.1) 0 + fc.2)) [] := rfl
  have hffold : fileCountsList pats al files
      = files.foldl (fun a fc =>
          let n := summaryFileCount pats al fc.2
          if n > 0 then mapSet a fc.1 n else a) [] := rfl
  refine ⟨?_, ?_, ?_, ?_, ?_, ?_, ?_⟩
  · intro pr hpr
    have hmem : pr ∈ dirCountsList (fileCountsList pats al files) :=
      ((List.perm_insertionSort rowLeP _).mem_iff).mp hpr
    have hnd : ((dirCountsList (fileCountsList pats al files)).map Prod.fst).Nodup := by
      rw [hdfold]
      exact dirCounts_keys_nodup _ [] (by simp)
    have hlook := lookup_of_mem_nodup _ hnd pr hmem
    have hval := dirCounts_lookup (fileCountsList pats al files) [] pr.1
    rw [hdfold] at hlook
    rw [hlook] at hval
    simpa [mapGetD] using hval
  · exact List.sorted_insertionSort rowLeP _
  · exact List.Pairwise.sublist (List.take_sublist 10 _)
      (List.sorted_insertionSort rowLeP _)
  · exact List.length_take_le 10 _
  · intro pr hpr
    have hmem : pr ∈ sortRows (fileCountsList pats al files) :=
      (List.take_sublist 10 _).mem hpr
    exact ((List.perm_insertionSort rowLeP _).mem_iff).mp hmem
  · intro pr hpr
    rw [hffold] at hpr
    exact fileCounts_sound pats al files [] (by intro p hp; simp at hp) pr hpr
  · intro fc hmem hpos
    rw [hffold]
    exact fileCounts_complete pats al files [] fc hmem hpos

/-- Witness for claim C7 at a concrete two-file corpus: the directory group
`a/b` reports count 2, the sum of its single file's count. -/
theorem claim_C7_witness :
    ("a/b", 2) ∈ dirRowsOf (fileCountsList [litM "x".data] []
        [("a/b/c.md", "xx".data), ("top.md", "x".data)])
    ∧ ("a/b", (2 : Nat)).2 = (((fileCountsList [litM "x".data] []
        [("a/b/c.md", "xx".data), ("top.md", "x".data)]).filter
          (fun fc => groupOf fc.1 == ("a/b", (2 : Nat)).1)).map Prod.snd).sum := by
  refine ⟨by decide, ?_⟩
  exact (claim_C7 [litM "x".data] [] [("a/b/c.md", "xx".data), ("top.md", "x".data)]).1
    ("a/b", 2) (by decide)

/-! ### Lazy pattern compilation in listing mode -/

/-- The per-line loop crashes exactly when some pattern source is invalid,
regardless of the line's content. -/
theorem lineEntriesE_snd (al : List Matcher) (file : String) (ln : Nat)
    (line : List Char) :
    ∀ pats : List (String × Option Matcher),
      (lineEntriesE pats al file ln line).2 = pats.any (fun nm => nm.2.isNone) := by
  intro pats
  induction pats with
  | nil => rfl
  | cons nm rest ih =>
      cases hm : nm.2 with
      | none =>
          obtain ⟨n, m⟩ := nm
          simp only at hm
          subst hm
          simp [lineEntriesE]
      | some m =>
          obtain ⟨n, m'⟩ := nm
          simp only at hm
          subst hm
          simp [lineEntriesE, ih]

theorem fileE_propagate (pats : List (String × Option Matcher)) (al : List Matcher)
    (file : String) :
    ∀ (lines : List (List Char)) (st : (List String × Bool) × Nat), st.1.2 = true →
      ((lines.foldl (fun st line =>
          if st.1.2 then st
          else
            let r := lineEntriesE pats al file (st.2 + 1) line
            ((st.1.1 ++ r.1, r.2), st.2 + 1)) st).1.2) = true := by
  intro lines
  induction lines with
  | nil => intro st h; exact h
  | cons l ls ih =>
      intro st h
      simp only [List.foldl_cons, h, if_true]
      exact ih st h

/-- A file's listing pass crashes exactly when some pattern source is invalid
and the file has at least one line. -/
theorem listingFileE_snd (pats : List (String × Option Matcher)) (al : List Matcher)
    (file : String) (content : List Char) :
    (listingFileE pats al file content).2
      = (pats.any (fun nm => nm.2.isNone) && !(jsSplitLines content).isEmpty) := by
  unfold listingFileE
  by_cases hbad : pats.any (fun nm => nm.2.isNone) = true
  · cases hl : jsSplitLines content with
    | nil => simp
    | cons l ls =>
        simp only [List.foldl_cons, hbad, Bool.true_and, List.isEmpty_cons,
          Bool.not_false]
        rw [if_neg (by simp)]
        exact fileE_propagate pats al file ls _
          (by simpa [lineEntriesE_snd] using hbad)
  · have hb : pats.any (fun nm => nm.2.isNone) = false := by
      cases h : pats.any (fun nm => nm.2.isNone)
      · rfl
      · exact absurd h hbad
    rw [hb]
    simp only [Bool.false_and]
    have inv : ∀ (lines : List (List Char)) (st : (List String × Bool) × Nat),
        st.1.2 = false →
        ((lines.foldl (fun st line =>
            if st.1.2 then st
            else
              let r := lineEntriesE pats al file (st.2 + 1) line
              ((st.1.1 ++ r.1, r.2), st.2 + 1)) st).1.2) = false := by
      intro lines
      induction lines with
      | nil => intro st h; exact h
      | cons l ls ih =>
          intro st h
          simp only [List.foldl_cons, h, if_false, Bool.false_eq_true]
          exact ih _ (by simpa [lineEntriesE_snd] using hb)
    exact inv (jsSplitLines content) _ rfl

theorem runE_propagate (pats : List (String × Option Matcher)) (al : List Matcher) :
    ∀ (files : List (String × List Char)) (st : List String × Bool), st.2 = true →
      (files.foldl (fun st fc =>
          if st.2 then st
          else
            let r := listingFileE pats al fc.1 fc.2
            (st.1 ++ r.1, r.2)) st).2 = true := by
  intro files
  induction files with
  | nil => intro st h; exact h
  | cons fc fs ih =>
      intro st h
      simp only [List.foldl_cons, h, if_true]
      exact ih st h

/-- The whole listing run crashes exactly when some pattern source is invalid
and some scanned file has at least one line. -/
theorem listingRunE_snd (pats : List (String × Option Matcher)) (al : List Matcher) :
    ∀ (files : List (String × List Char)) (out : List String),
      (files.foldl (fun st fc =>
          if st.2 then st
          else
            let r := listingFileE pats al fc.1 fc.2
            (st.1 ++ r.1, r.2)) (out, false)).2
        = (pats.any (fun nm => nm.2.isNone)
            && files.any (fun fc => !(jsSplitLines fc.2).isEmpty)) := by
  intro files
  induction files with
  | nil => intro out; simp
  | cons fc fs ih =>
      intro out
      have step1 : ((fc :: fs).foldl (fun st fc =>
          if st.2 then st
          else
            let r := listingFileE pats al fc.1 fc.2
            (st.1 ++ r.1, r.2)) (out, false))
        = fs.foldl (fun st fc =>
            if st.2 then st
            else
              let r := listingFileE pats al fc.1 fc.2
              (st.1 ++ r.1, r.2))
            (out ++ (listingFileE pats al fc.1 fc.2).1, (listingFileE pats al fc.1 fc.2).2) := by
        rw [List.foldl_cons]
        rfl
      rw [step1]
      have hfc := listingFileE_snd pats al fc.1 fc.2
      rw [hfc]
      cases hbad : pats.any (fun nm => nm.2.isNone) with
      | false =>
          simp only [Bool.false_and]
          rw [ih (out ++ (listingFileE pats al fc.1 fc.2).1)]
          rw [hbad]
          simp
      | true =>
          simp only [Bool.true_and]
          cases hl : (!(jsSplitLines fc.2).isEmpty) with
          | false =>
              rw [ih (out ++ (listingFileE pats al fc.1 fc.2).1)]
              rw [hbad]
              simp only [List.any_cons, hl, Bool.true_and, Bool.false_or]
          | true =>
              have hprop := runE_propagate pats al fs
                (out ++ (listingFileE pats al fc.1 fc.2).1, true) rfl
              rw [hprop]
              simp [List.any_cons, hbad, hl]

/-- Claim C8 (amended): pattern regex strings are compiled at use time inside
the per-line scan loop, not at PatternSet construction. A listing run crashes
through an uncaught exception exactly when some pattern string is invalid and
at least one scanned file has at least one line; the crash is not the
configuration exit status 2, and a crash-free run exits normally. -/
theorem claim_C8 (pats : List (String × Option Matcher)) (al : List Matcher)
    (files : List (String × List Char)) :
    ((listingRunE pats al files).2
      = (pats.any (fun nm => nm.2.isNone)
          && files.any (fun fc => !(jsSplitLines fc.2).isEmpty)))
    ∧ ((listingModeE pats al files).status = .crashed ↔
        (listingRunE pats al files).2 = true)
    ∧ (listingModeE pats al files).status ≠ .exit 2 := by
  refine ⟨listingRunE_snd pats al files [], ?_, ?_⟩
  · unfold listingModeE
    cases hr : (listingRunE pats al files).2 with
    | true => simp [hr]
    | false => simp [hr]
  · unfold listingModeE
    cases hr : (listingRunE pats al files).2 with
    | true => simp [hr]
    | false =>
        simp only [hr, Bool.false_eq_true, if_false]
        split <;> simp

/-- Counterexample to claim C8 as stated: with a valid first pattern and an
invalid second one, the run does not fail before any pattern is applied with
exit status 2 — the first pattern's match on the first line is emitted to
stdout and the process then dies of an uncaught exception. -/
theorem claim_C8_cex :
    listingModeE [("GOOD", some (litM "aa".data)), ("BAD", none)] []
        [("f.md", "xaay".data)]
      = ⟨["f.md:1:GOOD:aa"], false, none, .crashed⟩
    ∧ ExitStatus.crashed ≠ ExitStatus.exit 2 := by decide

/-! ### Early exit on an empty filtered corpus -/

/-- Claim C10: when no candidate file survives traversal, extension filtering
and ignore filtering, the run exits 0 immediately in every mode, prints
nothing, and neither seeds nor updates a baseline file even when a baseline
path was supplied. -/
theorem claim_C10 (cfg : ScanConfig) (root : FSF)
    (h : (collectEntries cfg.excl cfg.exts "" root).filter
        (fun fc => !isIgnoredModel cfg.ignores fc.1) = []) :
    runScanner cfg root = ⟨[], false, none, .exit 0⟩ := by
  simp only [runScanner]
  rw [h]
  rfl

/-- Witness for claim C10: a tree whose only extension-matching file outside
pruned directories is removed by the ignore glob, scanned in baseline mode
with a stored baseline present — output, baseline write and status are all
empty/clean. -/
theorem claim_C10_witness :
    runScanner ⟨false, false, true, some (some (.jobj [("P", 5)])),
        [("P", litM "q".data)], [], ["md"], ["skip"], ["*.md"]⟩
      (.dir ".git" (.file "g.md" "q" .nil)
        (.dir "skip" (.file "s.md" "q" .nil)
          (.file "c.txt" "q" (.file "d.md" "q" .nil))))
      = ⟨[], false, none, .exit 0⟩ := by
  apply claim_C10
  simp [collectEntries, extOf, extOf.lastDot, joinRel, isIgnoredModel, ruleMatches,
    globTest, hasSlash, basenameOf, basenameAux, globCompile, globTokens, globMatch]

end PiiScanner
